import Mathlib

/-!
Verification of the MP4-to-HLS converter pipeline (src/main.py).

Shallow embedding conventions:
* ffprobe JSON metadata is modelled by `Meta`: the stream list (each stream
  carrying its optional `codec_type` and `codec_name` strings) and the
  container-level duration field.  `format_duration = none` models an absent
  format section or absent duration key; `some none` models a present but
  unparsable duration string (Python's `float(...)` raising); `some (some q)`
  models a duration that parses to the rational `q` (floats are modelled
  exactly by rationals).
* Filesystem paths are modelled as lists of path components
  (`List String`); `os.path.relpath p base` for a `p` produced by
  `os.walk(base)` — hence always lying under `base` — is suffix extraction.
* The side effects of `ConverterThread.run` / `_process_one` (directory
  removal/creation, subprocess invocations, zip writing, Qt signal
  emissions) are reified as an `Act` trace; external nondeterminism
  (whether the output directory pre-exists, the probe result, the parsed
  `time=` values of each encoder stderr line together with the wall-clock
  debounce decision, the encoder exit code, the files found under the
  output directory) is supplied by a `JobEnv` record.
-/

/-- One entry of the ffprobe `streams` array (`codec_type` / `codec_name`
keys, each possibly absent). -/
structure StreamInfo where
  codec_type : Option String
  codec_name : Option String
deriving DecidableEq, Repr

/-- The part of the ffprobe output read by the program. -/
structure Meta where
  streams : List StreamInfo
  format_duration : Option (Option ℚ)
deriving DecidableEq, Repr

/-- `get_duration_seconds` (main.py:108): `float(meta.get("format", {}).get("duration", 0.0))`
with any exception mapped to `0.0`. -/
def get_duration_seconds (meta : Meta) : ℚ :=
  match meta.format_duration with
  | some (some q) => q
  | _ => 0

/-- The membership test `s.get("codec_name") in ("h264",)` of main.py:119. -/
def acceptedVideo (c : Option String) : Bool :=
  c == some "h264"

/-- The membership test `s.get("codec_name") in ("aac", "mp3", "ac3")` of main.py:121. -/
def acceptedAudio (c : Option String) : Bool :=
  c == some "aac" || c == some "mp3" || c == some "ac3"

/-- One iteration of the `for s in meta.get("streams", [])` loop of
`codecs_are_hls_friendly` (main.py:117-121): the pair is `(v_ok, a_ok)`. -/
def hlsStep (st : Bool × Bool) (s : StreamInfo) : Bool × Bool :=
  ((if s.codec_type == some "video" then acceptedVideo s.codec_name else st.1),
   (if s.codec_type == some "audio" then acceptedAudio s.codec_name else st.2))

/-- `codecs_are_hls_friendly` (main.py:115-122): fold the stream list over
`hlsStep` starting from `v_ok = False, a_ok = True` and return `v_ok and a_ok`. -/
def codecs_are_hls_friendly (meta : Meta) : Bool :=
  let r := meta.streams.foldl hlsStep (false, true)
  r.1 && r.2

/-- The video half of the decision as the code actually computes it: the
LAST stream of type video decides (each video stream overwrites `v_ok`);
no video stream means `false`. -/
def lastVideoOk (meta : Meta) : Bool :=
  match (meta.streams.filter (fun s => s.codec_type == some "video")).getLast? with
  | none => false
  | some s => acceptedVideo s.codec_name

/-- The audio half of the decision as the code actually computes it: the
LAST stream of type audio decides; no audio stream is acceptable. -/
def lastAudioOk (meta : Meta) : Bool :=
  match (meta.streams.filter (fun s => s.codec_type == some "audio")).getLast? with
  | none => true
  | some s => acceptedAudio s.codec_name

/-- The spec's reading of the decision rule, for comparison with the code:
some video stream has codec `h264`, and EVERY audio stream has a codec in
the accepted set. -/
def specHlsFriendly (meta : Meta) : Prop :=
  (∃ s ∈ meta.streams, s.codec_type = some "video" ∧ s.codec_name = some "h264") ∧
  (∀ s ∈ meta.streams, s.codec_type = some "audio" →
    (s.codec_name = some "aac" ∨ s.codec_name = some "mp3" ∨ s.codec_name = some "ac3"))

instance (meta : Meta) : Decidable (specHlsFriendly meta) := by
  unfold specHlsFriendly; infer_instance

lemma foldl_hlsStep (l : List StreamInfo) (v a : Bool) :
    l.foldl hlsStep (v, a) =
      ((match (l.filter (fun s => s.codec_type == some "video")).getLast? with
        | none => v
        | some s => acceptedVideo s.codec_name),
       (match (l.filter (fun s => s.codec_type == some "audio")).getLast? with
        | none => a
        | some s => acceptedAudio s.codec_name)) := by
  induction l using List.reverseRecOn generalizing v a with
  | nil => rfl
  | append_singleton t s ih =>
    simp only [List.foldl_append, List.foldl_cons, List.foldl_nil, ih, hlsStep,
      List.filter_append, List.filter_cons, List.filter_nil]
    by_cases hv : s.codec_type == some "video"
    · have hv' : s.codec_type = some "video" := by
        exact eq_of_beq hv
      have ha : (s.codec_type == some "audio") = false := by
        rw [hv']; decide
      simp [hv, ha, List.getLast?_concat]
    · by_cases ha : s.codec_type == some "audio"
      · simp [hv, ha, List.getLast?_concat]
      · simp [hv, ha]

/-- C8: the claim reads `codecs_are_hls_friendly` as "the video stream is
h264 and EVERY audio stream is accepted".  The code folds over the stream
list letting each stream of a type overwrite that type's flag, so only the
LAST audio (and video) stream decides.  A file whose first audio stream is
`opus` and whose second is `aac` is accepted by the code but rejected by
the claim's reading, refuting the stated equivalence. -/
theorem codecs_claim_cex :
    ¬ (codecs_are_hls_friendly
        ⟨[⟨some "video", some "h264"⟩, ⟨some "audio", some "opus"⟩,
          ⟨some "audio", some "aac"⟩], none⟩ = true ↔
       specHlsFriendly
        ⟨[⟨some "video", some "h264"⟩, ⟨some "audio", some "opus"⟩,
          ⟨some "audio", some "aac"⟩], none⟩) := by
  decide

/-- C8 (amended): `hlsFriendly` is true iff the last video stream (if any)
has codec `h264` — no video stream at all yields false — and the last
audio stream (if any) has codec in {aac, mp3, ac3}, absence of audio
being acceptable.  Streams of either type other than the last of that
type do not influence the result. -/
theorem codecs_last_stream_wins (meta : Meta) :
    codecs_are_hls_friendly meta = (lastVideoOk meta && lastAudioOk meta) := by
  unfold codecs_are_hls_friendly lastVideoOk lastAudioOk
  rw [foldl_hlsStep]

/-- `duration = max(1.0, get_duration_seconds(meta))` of main.py:187. -/
def durationOf (meta : Meta) : ℚ :=
  max 1 (get_duration_seconds meta)

/-- C9: the duration used by `_process_one` is `max(1.0, get_duration_seconds(meta))`:
it is always at least 1 (in particular nonzero, so the percent computation
`cur * 100 / duration` never divides by zero), and when the container
metadata lacks a duration (`none`) or its duration does not parse
(`some none`) the substituted value is exactly the floor 1. -/
theorem duration_floor (streams : List StreamInfo) (d : Option (Option ℚ)) :
    1 ≤ durationOf ⟨streams, d⟩ ∧
    durationOf ⟨streams, d⟩ ≠ 0 ∧
    durationOf ⟨streams, none⟩ = 1 ∧
    durationOf ⟨streams, some none⟩ = 1 := by
  refine ⟨le_max_left _ _, ?_, ?_, ?_⟩
  · have h : (0 : ℚ) < durationOf ⟨streams, d⟩ :=
      lt_of_lt_of_le one_pos (le_max_left _ _)
    exact ne_of_gt h
  · simp [durationOf, get_duration_seconds]
  · simp [durationOf, get_duration_seconds]

/-- The `Job` dataclass (main.py:126-132).  `srcPath` is the source path as
components; `srcName` and `srcStem` are `src.name` and `src.stem`. -/
structure Job where
  srcPath : List String
  srcName : String
  srcStem : String
  out_root : List String
  skip_if_incompatible : Bool := true
  enable_transcode_if_needed : Bool := false
  segment_seconds : Nat := 6
deriving DecidableEq, Repr

/-- The external world observed by one `_process_one` call: whether the
working directory pre-exists, the ffprobe result (`error` = non-zero exit,
carrying stderr), for each encoder stderr line the parsed `time=` seconds
(`none` when the line has no usable time) paired with the wall-clock
debounce decision (`true` = more than 0.05 s since the last emission), the
encoder exit code, whether the target zip pre-exists, and the regular
files found under the working directory (paths relative to it). -/
structure JobEnv where
  outDirExists : Bool
  probeResult : Except String Meta
  stderrLines : List (Option ℚ × Bool)
  exitCode : Int
  zipExists : Bool
  dirFiles : List (List String)

/-- Terminal per-job outcome: normal return (`OK`), `SkipError` (`SKIP`),
any other exception (`FAIL`), with the exception text. -/
inductive Outcome where
  | ok
  | skipped (reason : String)
  | failed (reason : String)
deriving DecidableEq, Repr

/-- Reified side effects and Qt signal emissions of the worker thread. -/
inductive Act where
  | rmTree (p : List String)
  | mkDir (p : List String)
  | probeCall (p : List String)
  | runEncoder (args : List String)
  | unlinkZip (p : List String)
  | zipWrite (p : List String) (entries : List (List String))
  | rmTreeIgnore (p : List String)
  | logMsg (s : String)
  | fileProgress (name : String) (pct : ℤ)
  | fileDone (name : String) (status : String)
  | progressAll (pct : Nat)
  | allDone
deriving DecidableEq, Repr

/-- `out_dir = job.out_root / (src.stem + "_hls")` (main.py:181). -/
def outDirOf (job : Job) : List String :=
  job.out_root ++ [job.srcStem ++ "_hls"]

/-- `zip_path = job.out_root / f"<stem>.zip"` (main.py:247). -/
def zipPathOf (job : Job) : List String :=
  job.out_root ++ [job.srcStem ++ ".zip"]

/-- Render a component path the way `str(Path)` does. -/
def pathStr (p : List String) : String :=
  String.intercalate "/" p

/-- Python `int(...)` applied to a float truncates toward zero. -/
def truncInt (q : ℚ) : ℤ :=
  if q < 0 then ⌈q⌉ else ⌊q⌋

/-- `pct = max(0, min(100, int(cur * 100 / duration)))` (main.py:234). -/
def pctOf (duration cur : ℚ) : ℤ :=
  max 0 (min 100 (truncInt (cur * 100 / duration)))

/-- The seconds values of exactly those stderr lines that both parse to a
time and pass the debounce test, i.e. those that reach
`self.sig.file_progress.emit` (main.py:227-238). -/
def emittedTimes (lines : List (Option ℚ × Bool)) : List ℚ :=
  lines.filterMap (fun l => if l.2 then l.1 else none)

/-- The `file_progress` emissions of the stderr-reading loop (main.py:219-240). -/
def encodeEvents (name : String) (duration : ℚ) (lines : List (Option ℚ × Bool)) :
    List Act :=
  (emittedTimes lines).map (fun cur => Act.fileProgress name (pctOf duration cur))

/-- The stream-copy codec arguments of main.py:202. -/
def copyArgs : List String :=
  ["-c:v", "copy", "-c:a", "copy"]

/-- The transcode codec arguments of main.py:205. -/
def transcodeArgs : List String :=
  ["-c:v", "libx264", "-preset", "veryfast", "-crf", "18", "-c:a", "aac", "-b:a", "192k"]

/-- The full encoder argument list built at main.py:197-214; the codec
block depends only on `hls_ok`. -/
def buildArgs (ffmpeg : String) (job : Job) (hls_ok : Bool) : List String :=
  [ffmpeg, "-y", "-hide_banner", "-loglevel", "error", "-stats", "-i", pathStr job.srcPath]
    ++ (if hls_ok then copyArgs else transcodeArgs)
    ++ ["-movflags", "+faststart", "-f", "hls",
        "-hls_time", toString job.segment_seconds,
        "-hls_list_size", "0",
        "-hls_segment_filename", pathStr (outDirOf job ++ ["segment_%05d.ts"]),
        pathStr (outDirOf job ++ ["playlist.m3u8"])]

/-- `os.path.relpath(p, base)` specialised to paths produced by
`os.walk(base)`, which always lie under `base`: strip the base prefix. -/
def relpathL (p base : List String) : List String :=
  if base.isPrefixOf p then p.drop base.length else p

/-- The archive entries written at main.py:250-256: for every regular file
under the working directory, `arcname = os.path.relpath(p, out_dir)`. -/
def zipEntriesOf (job : Job) (env : JobEnv) : List (List String) :=
  env.dirFiles.map (fun rel => relpathL (outDirOf job ++ rel) (outDirOf job))

/-- The `SkipError` message of main.py:191. -/
def skipMsg : String :=
  "Codecs not HLS-friendly (need H.264 video and AAC/MP3/AC3 audio)."

/-- The `RuntimeError` message of main.py:244 on a non-zero encoder exit. -/
def encoderFailMsg : String :=
  "ffmpeg failed — check logs and ensure codecs are supported."

/-- main.py:181-184: remove a pre-existing working directory, then create
it fresh.  Runs before the probe and before the compatibility decision. -/
def preActs (job : Job) (env : JobEnv) : List Act :=
  (if env.outDirExists then [Act.rmTree (outDirOf job)] else [])
    ++ [Act.mkDir (outDirOf job)]

/-- main.py:246-262: the success path after a zero encoder exit — replace
any pre-existing zip, write the archive, remove the working directory,
log `DONE`, emit `file_progress(name, 100)`. -/
def successTail (job : Job) (env : JobEnv) : List Act :=
  (if env.zipExists then [Act.unlinkZip (zipPathOf job)] else [])
    ++ [Act.zipWrite (zipPathOf job) (zipEntriesOf job env),
        Act.rmTreeIgnore (outDirOf job),
        Act.logMsg ("DONE: " ++ job.srcName ++ " → " ++ (job.srcStem ++ ".zip")),
        Act.fileProgress job.srcName 100]

/-- `ConverterThread._process_one` (main.py:179-262) as a trace of actions
plus a terminal outcome. -/
def processOne (ffmpeg : String) (job : Job) (env : JobEnv) : List Act × Outcome :=
  match env.probeResult with
  | Except.error e => (preActs job env ++ [Act.probeCall job.srcPath], Outcome.failed e)
  | Except.ok meta =>
    if !codecs_are_hls_friendly meta && job.skip_if_incompatible
        && !job.enable_transcode_if_needed then
      (preActs job env ++ [Act.probeCall job.srcPath], Outcome.skipped skipMsg)
    else
      let encActs :=
        preActs job env
          ++ [Act.probeCall job.srcPath,
              Act.runEncoder (buildArgs ffmpeg job (codecs_are_hls_friendly meta))]
          ++ encodeEvents job.srcName (durationOf meta) env.stderrLines
      if env.exitCode = 0 then
        (encActs ++ successTail job env, Outcome.ok)
      else
        (encActs, Outcome.failed encoderFailMsg)

/-- Encoder invocations in a trace. -/
def encoderCalls (tr : List Act) : List (List String) :=
  tr.filterMap (fun a => match a with | Act.runEncoder args => some args | _ => none)

/-- Per-job progress percents in a trace, in emission order. -/
def filePcts (tr : List Act) : List ℤ :=
  tr.filterMap (fun a => match a with | Act.fileProgress _ p => some p | _ => none)

/-- Archive writes in a trace: target path and entry list. -/
def zipWrites (tr : List Act) : List (List String × List (List String)) :=
  tr.filterMap (fun a => match a with | Act.zipWrite p es => some (p, es) | _ => none)

/-- The per-job terminal emissions of `ConverterThread.run` (main.py:163-170):
`file_done(name, "OK")` on normal return; a `SKIP`/`FAIL` log line followed
by the matching `file_done` on `SkipError` / any other exception. -/
def terminalActs (job : Job) : Outcome → List Act
  | Outcome.ok => [Act.fileDone job.srcName "OK"]
  | Outcome.skipped e =>
      [Act.logMsg ("SKIP: " ++ job.srcName ++ " — " ++ e),
       Act.fileDone job.srcName "SKIP"]
  | Outcome.failed e =>
      [Act.logMsg ("FAIL: " ++ job.srcName ++ " — " ++ e),
       Act.fileDone job.srcName "FAIL"]

/-- The `for i, job in enumerate(self.jobs, start=1)` loop of
`ConverterThread.run` (main.py:159-171).  `stop i` is the value of the
`_stop` flag observed before the job at 0-based position `i`; after each
job the overall progress `int(i * 100 / total)` is emitted (float
truncation, which for any realistic job count coincides with the rational
floor and hence with `Nat` division). -/
def runJobs (ffmpeg : String) (total : Nat) (stop : Nat → Bool) :
    Nat → List (Job × JobEnv) → List Act
  | _, [] => []
  | i, (job, env) :: rest =>
    if stop i then []
    else
      (processOne ffmpeg job env).1
        ++ terminalActs job (processOne ffmpeg job env).2
        ++ [Act.progressAll ((i + 1) * 100 / total)]
        ++ runJobs ffmpeg total stop (i + 1) rest

/-- `ConverterThread.run` (main.py:150-173): if the binaries cannot be
located, log the error once and emit `all_done`; otherwise process the
jobs and emit `all_done` unconditionally at the end. -/
def runModel (binaries : Except String (String × String)) (stop : Nat → Bool)
    (jobs : List (Job × JobEnv)) : List Act :=
  match binaries with
  | Except.error e => [Act.logMsg ("ERROR: " ++ e), Act.allDone]
  | Except.ok fp => runJobs fp.1 jobs.length stop 0 jobs ++ [Act.allDone]

/-- Recogniser for overall-progress emissions. -/
def isProgressAll : Act → Bool
  | Act.progressAll _ => true
  | _ => false

/-- Recogniser for per-job terminal emissions. -/
def isFileDone : Act → Bool
  | Act.fileDone _ _ => true
  | _ => false

/-- Recogniser for the batch-complete emission. -/
def isAllDone : Act → Bool
  | Act.allDone => true
  | _ => false

/-- Occurrence count of actions matched by `p`. -/
def cnt (p : Act → Bool) (l : List Act) : Nat :=
  (l.filter p).length

/-- Overall-progress values in a trace, in emission order. -/
def progressVals (tr : List Act) : List Nat :=
  tr.filterMap (fun a => match a with | Act.progressAll v => some v | _ => none)

lemma cnt_append (p : Act → Bool) (l1 l2 : List Act) :
    cnt p (l1 ++ l2) = cnt p l1 + cnt p l2 := by
  simp [cnt, List.filter_append]

lemma cnt_take_le (p : Act → Bool) (l : List Act) (n : Nat) :
    cnt p (l.take n) ≤ cnt p l :=
  ((l.take_sublist n).filter p).length_le

lemma cnt_eq_zero (p : Act → Bool) (l : List Act)
    (h : ∀ a ∈ l, p a = false) : cnt p l = 0 := by
  simp only [cnt, List.length_eq_zero, List.filter_eq_nil_iff]
  intro a ha
  simp [h a ha]

lemma processOne_probe_error (f : String) (job : Job) (env : JobEnv) (e : String)
    (h : env.probeResult = Except.error e) :
    processOne f job env =
      (preActs job env ++ [Act.probeCall job.srcPath], Outcome.failed e) := by
  unfold processOne
  rw [h]

lemma processOne_skip (f : String) (job : Job) (env : JobEnv) (meta : Meta)
    (h : env.probeResult = Except.ok meta)
    (hc : (!codecs_are_hls_friendly meta && job.skip_if_incompatible
        && !job.enable_transcode_if_needed) = true) :
    processOne f job env =
      (preActs job env ++ [Act.probeCall job.srcPath], Outcome.skipped skipMsg) := by
  unfold processOne
  rw [h]
  simp [hc]

lemma processOne_encode_fail (f : String) (job : Job) (env : JobEnv) (meta : Meta)
    (h : env.probeResult = Except.ok meta)
    (hc : (!codecs_are_hls_friendly meta && job.skip_if_incompatible
        && !job.enable_transcode_if_needed) = false)
    (hrc : ¬ env.exitCode = 0) :
    processOne f job env =
      (preActs job env
        ++ [Act.probeCall job.srcPath,
            Act.runEncoder (buildArgs f job (codecs_are_hls_friendly meta))]
        ++ encodeEvents job.srcName (durationOf meta) env.stderrLines,
       Outcome.failed encoderFailMsg) := by
  unfold processOne
  rw [h]
  simp [hc, hrc]

lemma processOne_encode_ok (f : String) (job : Job) (env : JobEnv) (meta : Meta)
    (h : env.probeResult = Except.ok meta)
    (hc : (!codecs_are_hls_friendly meta && job.skip_if_incompatible
        && !job.enable_transcode_if_needed) = false)
    (hrc : env.exitCode = 0) :
    processOne f job env =
      (preActs job env
        ++ [Act.probeCall job.srcPath,
            Act.runEncoder (buildArgs f job (codecs_are_hls_friendly meta))]
        ++ encodeEvents job.srcName (durationOf meta) env.stderrLines
        ++ successTail job env,
       Outcome.ok) := by
  unfold processOne
  rw [h]
  simp [hc, hrc]

lemma encoderCalls_append (l1 l2 : List Act) :
    encoderCalls (l1 ++ l2) = encoderCalls l1 ++ encoderCalls l2 := by
  simp [encoderCalls, List.filterMap_append]

lemma encoderCalls_preActs (job : Job) (env : JobEnv) :
    encoderCalls (preActs job env) = [] := by
  cases h : env.outDirExists <;> simp [preActs, h, encoderCalls]

lemma encoderCalls_encodeEvents (n : String) (d : ℚ) (ls : List (Option ℚ × Bool)) :
    encoderCalls (encodeEvents n d ls) = [] := by
  simp [encodeEvents, encoderCalls, List.filterMap_map]

lemma encoderCalls_successTail (job : Job) (env : JobEnv) :
    encoderCalls (successTail job env) = [] := by
  cases h : env.zipExists <;> simp [successTail, h, encoderCalls]

lemma encoderCalls_encode_branch (f : String) (job : Job) (env : JobEnv) (meta : Meta)
    (h : env.probeResult = Except.ok meta)
    (hc : (!codecs_are_hls_friendly meta && job.skip_if_incompatible
        && !job.enable_transcode_if_needed) = false) :
    encoderCalls (processOne f job env).1
      = [buildArgs f job (codecs_are_hls_friendly meta)] := by
  have hpair : ∀ (p : List String) (args : List String),
      encoderCalls [Act.probeCall p, Act.runEncoder args] = [args] := fun _ _ => rfl
  by_cases hrc : env.exitCode = 0
  · rw [processOne_encode_ok f job env meta h hc hrc]
    simp only [encoderCalls_append, encoderCalls_preActs, hpair,
      encoderCalls_encodeEvents, encoderCalls_successTail,
      List.nil_append, List.append_nil]
  · rw [processOne_encode_fail f job env meta h hc hrc]
    simp only [encoderCalls_append, encoderCalls_preActs, hpair,
      encoderCalls_encodeEvents, List.nil_append, List.append_nil]

/-- C1: with the probe succeeded, the invoked path is a total function of
`hls_ok` and the two policy flags (main.py:190-205): `hls_ok = true` always
yields exactly one encoder invocation with the stream-copy arguments;
`hls_ok = false` with `skip_if_incompatible` unset or the transcode
fallback set always yields exactly one invocation with the transcode
arguments; otherwise the job is skipped and the encoder never runs.  The
copy/transcode argument blocks really occur inside the respective argument
lists. -/
theorem hls_decision_total (f : String) (job : Job) (env : JobEnv) (meta : Meta)
    (h : env.probeResult = Except.ok meta) :
    (codecs_are_hls_friendly meta = true →
      encoderCalls (processOne f job env).1 = [buildArgs f job true]) ∧
    (codecs_are_hls_friendly meta = false →
      (job.skip_if_incompatible = false ∨ job.enable_transcode_if_needed = true) →
      encoderCalls (processOne f job env).1 = [buildArgs f job false]) ∧
    (codecs_are_hls_friendly meta = false → job.skip_if_incompatible = true →
      job.enable_transcode_if_needed = false →
      (processOne f job env).2 = Outcome.skipped skipMsg ∧
      encoderCalls (processOne f job env).1 = []) ∧
    copyArgs <:+: buildArgs f job true ∧
    transcodeArgs <:+: buildArgs f job false := by
  refine ⟨?_, ?_, ?_, ?_, ?_⟩
  · intro hhls
    have hc : (!codecs_are_hls_friendly meta && job.skip_if_incompatible
        && !job.enable_transcode_if_needed) = false := by simp [hhls]
    rw [encoderCalls_encode_branch f job env meta h hc, hhls]
  · intro hhls hpol
    have hc : (!codecs_are_hls_friendly meta && job.skip_if_incompatible
        && !job.enable_transcode_if_needed) = false := by
      rcases hpol with h1 | h1 <;> simp [h1]
    rw [encoderCalls_encode_branch f job env meta h hc, hhls]
  · intro h1 h2 h3
    have hc : (!codecs_are_hls_friendly meta && job.skip_if_incompatible
        && !job.enable_transcode_if_needed) = true := by simp [h1, h2, h3]
    rw [processOne_skip f job env meta h hc]
    refine ⟨rfl, ?_⟩
    have hone : ∀ (p : List String), encoderCalls [Act.probeCall p] = [] :=
      fun _ => rfl
    simp only [encoderCalls_append, encoderCalls_preActs, hone, List.append_nil]
  · exact ⟨[f, "-y", "-hide_banner", "-loglevel", "error", "-stats", "-i",
      pathStr job.srcPath],
      ["-movflags", "+faststart", "-f", "hls",
       "-hls_time", toString job.segment_seconds,
       "-hls_list_size", "0",
       "-hls_segment_filename", pathStr (outDirOf job ++ ["segment_%05d.ts"]),
       pathStr (outDirOf job ++ ["playlist.m3u8"])], rfl⟩
  · exact ⟨[f, "-y", "-hide_banner", "-loglevel", "error", "-stats", "-i",
      pathStr job.srcPath],
      ["-movflags", "+faststart", "-f", "hls",
       "-hls_time", toString job.segment_seconds,
       "-hls_list_size", "0",
       "-hls_segment_filename", pathStr (outDirOf job ++ ["segment_%05d.ts"]),
       pathStr (outDirOf job ++ ["playlist.m3u8"])], rfl⟩

/-- A compatible source: h264 video, aac audio, parsable 10 s duration. -/
def metaCompat : Meta :=
  ⟨[⟨some "video", some "h264"⟩, ⟨some "audio", some "aac"⟩], some (some 10)⟩

/-- An incompatible source: mpeg4 video, aac audio. -/
def metaIncompat : Meta :=
  ⟨[⟨some "video", some "mpeg4"⟩, ⟨some "audio", some "aac"⟩], some (some 10)⟩

/-- A job with the default policy flags (skip on, transcode fallback off). -/
def jobW : Job :=
  { srcPath := ["in", "movie.mp4"], srcName := "movie.mp4", srcStem := "movie",
    out_root := ["out"] }

/-- A clean successful environment for `jobW` on a compatible source. -/
def envOkW : JobEnv :=
  { outDirExists := false, probeResult := Except.ok metaCompat, stderrLines := [],
    exitCode := 0, zipExists := false,
    dirFiles := [["playlist.m3u8"], ["segment_00000.ts"], ["segment_00001.ts"]] }

/-- Same environment but the probed source is incompatible. -/
def envSkipW : JobEnv :=
  { outDirExists := false, probeResult := Except.ok metaIncompat, stderrLines := [],
    exitCode := 0, zipExists := false,
    dirFiles := [["playlist.m3u8"], ["segment_00000.ts"], ["segment_00001.ts"]] }

/-- Same environment but the encoder exits with status 1. -/
def envExit1W : JobEnv :=
  { outDirExists := false, probeResult := Except.ok metaCompat, stderrLines := [],
    exitCode := 1, zipExists := false,
    dirFiles := [["playlist.m3u8"], ["segment_00000.ts"], ["segment_00001.ts"]] }

theorem hls_decision_total_witness :
    encoderCalls (processOne "ffmpeg" jobW envOkW).1 = [buildArgs "ffmpeg" jobW true] := by
  have h := hls_decision_total "ffmpeg" jobW envOkW metaCompat rfl
  exact h.1 (by decide)

/-- C2 counterexample: on the skip path the working directory HAS been
created (main.py:184 runs before the decision at main.py:190), refuting
"the job's working output directory is never created". -/
theorem skip_creates_workdir_cex :
    ¬ ((∃ r, (processOne "ffmpeg" jobW envSkipW).2 = Outcome.skipped r) ∧
       encoderCalls (processOne "ffmpeg" jobW envSkipW).1 = [] ∧
       Act.mkDir (outDirOf jobW) ∉ (processOne "ffmpeg" jobW envSkipW).1) := by
  intro hcl
  apply hcl.2.2
  have htr : (processOne "ffmpeg" jobW envSkipW).1
      = [Act.mkDir (outDirOf jobW), Act.probeCall jobW.srcPath] := rfl
  rw [htr]
  exact List.mem_cons_self _ _

/-- C2 (amended): an incompatible source under `skip=true, transcode=false`
ends `Skipped` (never `Failed`), the encoder is never invoked and no
archive is written — but the working directory IS created (after deleting
any same-named pre-existing one) before the decision, and is left on disk. -/
theorem skip_outcome_no_encoder (f : String) (job : Job) (env : JobEnv) (meta : Meta)
    (h : env.probeResult = Except.ok meta)
    (hhls : codecs_are_hls_friendly meta = false)
    (hskip : job.skip_if_incompatible = true)
    (htrans : job.enable_transcode_if_needed = false) :
    (processOne f job env).2 = Outcome.skipped skipMsg ∧
    encoderCalls (processOne f job env).1 = [] ∧
    Act.mkDir (outDirOf job) ∈ (processOne f job env).1 ∧
    Act.rmTreeIgnore (outDirOf job) ∉ (processOne f job env).1 ∧
    zipWrites (processOne f job env).1 = [] := by
  have hc : (!codecs_are_hls_friendly meta && job.skip_if_incompatible
      && !job.enable_transcode_if_needed) = true := by simp [hhls, hskip, htrans]
  rw [processOne_skip f job env meta h hc]
  refine ⟨rfl, ?_, ?_, ?_, ?_⟩
  · have hone : ∀ (p : List String), encoderCalls [Act.probeCall p] = [] :=
      fun _ => rfl
    simp only [encoderCalls_append, encoderCalls_preActs, hone, List.append_nil]
  · cases henv : env.outDirExists <;> simp [preActs, henv]
  · cases henv : env.outDirExists <;> simp [preActs, henv]
  · cases henv : env.outDirExists <;> simp [preActs, henv, zipWrites]

theorem skip_outcome_no_encoder_witness :
    (processOne "ffmpeg" jobW envSkipW).2 = Outcome.skipped skipMsg ∧
    encoderCalls (processOne "ffmpeg" jobW envSkipW).1 = [] ∧
    Act.mkDir (outDirOf jobW) ∈ (processOne "ffmpeg" jobW envSkipW).1 := by
  have h := skip_outcome_no_encoder "ffmpeg" jobW envSkipW metaIncompat rfl
    (by decide) rfl rfl
  exact ⟨h.1, h.2.1, h.2.2.1⟩

/-- C5 counterexample: the encoder exits with status 1, the job does fail
and the directory is retained, but the `RuntimeError` text of main.py:244
is "ffmpeg failed — check logs and ensure codecs are supported.", which
does not contain the claimed substring "non-zero status". -/
theorem encoder_fail_reason_cex :
    ¬ (∃ r, (processOne "ffmpeg" jobW envExit1W).2 = Outcome.failed r ∧
          ("non-zero status").data <:+: r.data ∧
          Act.rmTreeIgnore (outDirOf jobW) ∉ (processOne "ffmpeg" jobW envExit1W).1) := by
  rintro ⟨r, hr, hsub, -⟩
  have h2 : (processOne "ffmpeg" jobW envExit1W).2 = Outcome.failed encoderFailMsg := rfl
  rw [h2] at hr
  injection hr with hre
  rw [← hre] at hsub
  exact absurd hsub (by decide)

/-- C5 (amended): whenever the encoder runs (probe succeeded, skip branch
not taken) and exits non-zero, the outcome is `Failed` with the fixed
reason "ffmpeg failed — check logs and ensure codecs are supported."
(which contains "ffmpeg failed" but not the claimed "non-zero status"),
no archive is written, and the working directory is not removed —
retained on disk for diagnosis. -/
theorem encoder_fail_outcome (f : String) (job : Job) (env : JobEnv) (meta : Meta)
    (h : env.probeResult = Except.ok meta)
    (hc : (!codecs_are_hls_friendly meta && job.skip_if_incompatible
        && !job.enable_transcode_if_needed) = false)
    (hrc : ¬ env.exitCode = 0) :
    (processOne f job env).2 = Outcome.failed encoderFailMsg ∧
    ("ffmpeg failed").data <:+: encoderFailMsg.data ∧
    Act.rmTreeIgnore (outDirOf job) ∉ (processOne f job env).1 ∧
    zipWrites (processOne f job env).1 = [] := by
  rw [processOne_encode_fail f job env meta h hc hrc]
  refine ⟨rfl, by decide, ?_, ?_⟩
  · cases henv : env.outDirExists <;>
      simp [preActs, henv, encodeEvents, List.mem_map]
  · cases henv : env.outDirExists <;>
      simp [zipWrites, preActs, henv, encodeEvents, List.filterMap_append,
        List.filterMap_map]

theorem encoder_fail_outcome_witness :
    (processOne "ffmpeg" jobW envExit1W).2 = Outcome.failed encoderFailMsg ∧
    Act.rmTreeIgnore (outDirOf jobW) ∉ (processOne "ffmpeg" jobW envExit1W).1 := by
  have h := encoder_fail_outcome "ffmpeg" jobW envExit1W metaCompat rfl
    (by decide) (by decide)
  exact ⟨h.1, h.2.2.1⟩

/-- C10: for every job, whatever the environment, the trace begins with the
removal of a same-named pre-existing directory (exactly when one exists)
followed by the creation of the fresh working directory and only then the
probe invocation; when the job ends `Skipped` or the probe fails, nothing
follows the probe call, so the fresh directory is left on disk. -/
theorem workdir_reset_first (f : String) (job : Job) (env : JobEnv) :
    ∃ rest, (processOne f job env).1 =
        (if env.outDirExists then [Act.rmTree (outDirOf job)] else [])
          ++ [Act.mkDir (outDirOf job), Act.probeCall job.srcPath] ++ rest ∧
      (∀ e, env.probeResult = Except.error e → rest = []) ∧
      (∀ r, (processOne f job env).2 = Outcome.skipped r → rest = []) := by
  cases hpr : env.probeResult with
  | error e =>
    refine ⟨[], ?_, fun _ _ => rfl, fun _ _ => rfl⟩
    rw [processOne_probe_error f job env e hpr]
    simp [preActs]
  | ok meta =>
    by_cases hc : (!codecs_are_hls_friendly meta && job.skip_if_incompatible
        && !job.enable_transcode_if_needed) = true
    · refine ⟨[], ?_, fun _ _ => rfl, fun _ _ => rfl⟩
      rw [processOne_skip f job env meta hpr hc]
      simp [preActs]
    · rw [Bool.not_eq_true] at hc
      by_cases hrc : env.exitCode = 0
      · refine ⟨[Act.runEncoder (buildArgs f job (codecs_are_hls_friendly meta))]
          ++ encodeEvents job.srcName (durationOf meta) env.stderrLines
          ++ successTail job env, ?_, ?_, ?_⟩
        · rw [processOne_encode_ok f job env meta hpr hc hrc]
          simp [preActs]
        · intro e' he'
          exact absurd he' (by simp)
        · intro r hr
          rw [processOne_encode_ok f job env meta hpr hc hrc] at hr
          exact absurd hr (by simp)
      · refine ⟨[Act.runEncoder (buildArgs f job (codecs_are_hls_friendly meta))]
          ++ encodeEvents job.srcName (durationOf meta) env.stderrLines, ?_, ?_, ?_⟩
        · rw [processOne_encode_fail f job env meta hpr hc hrc]
          simp [preActs]
        · intro e' he'
          exact absurd he' (by simp)
        · intro r hr
          rw [processOne_encode_fail f job env meta hpr hc hrc] at hr
          exact absurd hr (by simp)

theorem workdir_reset_first_witness :
    (processOne "ffmpeg" jobW envSkipW).1 =
      [Act.mkDir (outDirOf jobW), Act.probeCall jobW.srcPath] := by
  obtain ⟨rest, htr, -, hskip⟩ := workdir_reset_first "ffmpeg" jobW envSkipW
  have hr : rest = [] := hskip skipMsg rfl
  rw [hr] at htr
  simpa using htr

lemma pct_range (d cur : ℚ) : 0 ≤ pctOf d cur ∧ pctOf d cur ≤ 100 := by
  unfold pctOf
  constructor
  · exact le_max_left _ _
  · exact max_le (by norm_num) (min_le_left _ _)

lemma truncInt_mono {x y : ℚ} (h : x ≤ y) : truncInt x ≤ truncInt y := by
  unfold truncInt
  by_cases hx : x < 0
  · by_cases hy : y < 0
    · simp only [hx, hy, if_true]
      exact Int.ceil_mono h
    · simp only [hx, hy, if_true, if_false]
      have h1 : (⌈x⌉ : ℤ) ≤ 0 := Int.ceil_le.mpr (by exact_mod_cast hx.le)
      exact le_trans h1 (Int.floor_nonneg.mpr (not_lt.mp hy))
  · have hy : ¬ y < 0 := fun hy => hx (lt_of_le_of_lt h hy)
    simp only [hx, hy, if_false]
    exact Int.floor_mono h

lemma pct_mono (d : ℚ) (hd : 0 < d) {x y : ℚ} (h : x ≤ y) :
    pctOf d x ≤ pctOf d y := by
  unfold pctOf
  have hdiv : x * 100 / d ≤ y * 100 / d :=
    (div_le_div_iff_of_pos_right hd).mpr (mul_le_mul_of_nonneg_right h (by norm_num))
  exact max_le_max le_rfl (min_le_min le_rfl (truncInt_mono hdiv))

lemma filePcts_append (l1 l2 : List Act) :
    filePcts (l1 ++ l2) = filePcts l1 ++ filePcts l2 := by
  simp [filePcts, List.filterMap_append]

lemma filePcts_preActs (job : Job) (env : JobEnv) :
    filePcts (preActs job env) = [] := by
  cases h : env.outDirExists <;> simp [preActs, h, filePcts]

lemma filePcts_map_fileProgress (n : String) (g : ℚ → ℤ) (ts : List ℚ) :
    filePcts (ts.map (fun cur => Act.fileProgress n (g cur))) = ts.map g := by
  induction ts with
  | nil => rfl
  | cons t ts ih => simp [filePcts, List.filterMap_cons] at ih ⊢; exact ih

lemma filePcts_encodeEvents (n : String) (d : ℚ) (ls : List (Option ℚ × Bool)) :
    filePcts (encodeEvents n d ls) = (emittedTimes ls).map (pctOf d) := by
  unfold encodeEvents
  exact filePcts_map_fileProgress n (pctOf d) (emittedTimes ls)

lemma filePcts_successTail (job : Job) (env : JobEnv) :
    filePcts (successTail job env) = [100] := by
  cases h : env.zipExists <;> simp [successTail, h, filePcts, List.filterMap_cons]

lemma durationOf_pos (meta : Meta) : 0 < durationOf meta :=
  lt_of_lt_of_le one_pos (le_max_left _ _)

/-- C3 (amended): every per-job percent emitted for a job is an integer in
[0,100] (the loop clamps, and the final emission is exactly 100); the
emitted sequence is monotonically non-decreasing whenever the parsed
elapsed times are (the code does not enforce monotonicity itself); and a
job that ends `Completed` has 100 as its last emission.  The code does NOT
guarantee that 100 is emitted only on success: the clamp turns any parsed
time at or beyond the (possibly underestimated) duration into 100 even if
the encoder subsequently fails. -/
theorem job_progress_amended (f : String) (job : Job) (env : JobEnv) :
    (∀ p ∈ filePcts (processOne f job env).1, 0 ≤ p ∧ p ≤ 100) ∧
    (List.Chain' (· ≤ ·) (emittedTimes env.stderrLines) →
      List.Chain' (· ≤ ·) (filePcts (processOne f job env).1)) ∧
    ((processOne f job env).2 = Outcome.ok →
      (filePcts (processOne f job env).1).getLast? = some 100) := by
  cases hpr : env.probeResult with
  | error e =>
    rw [processOne_probe_error f job env e hpr]
    have hfp : filePcts (preActs job env ++ [Act.probeCall job.srcPath]) = [] := by
      rw [filePcts_append, filePcts_preActs]
      rfl
    rw [hfp]
    exact ⟨by simp, fun _ => by simp, fun hok => absurd hok (by simp)⟩
  | ok meta =>
    have hdur : 0 < durationOf meta := durationOf_pos meta
    by_cases hc : (!codecs_are_hls_friendly meta && job.skip_if_incompatible
        && !job.enable_transcode_if_needed) = true
    · rw [processOne_skip f job env meta hpr hc]
      have hfp : filePcts (preActs job env ++ [Act.probeCall job.srcPath]) = [] := by
        rw [filePcts_append, filePcts_preActs]
        rfl
      rw [hfp]
      exact ⟨by simp, fun _ => by simp, fun hok => absurd hok (by simp)⟩
    · rw [Bool.not_eq_true] at hc
      by_cases hrc : env.exitCode = 0
      · rw [processOne_encode_ok f job env meta hpr hc hrc]
        have hfp : filePcts (preActs job env
            ++ [Act.probeCall job.srcPath,
                Act.runEncoder (buildArgs f job (codecs_are_hls_friendly meta))]
            ++ encodeEvents job.srcName (durationOf meta) env.stderrLines
            ++ successTail job env)
            = (emittedTimes env.stderrLines).map (pctOf (durationOf meta)) ++ [100] := by
          rw [filePcts_append, filePcts_append, filePcts_append, filePcts_preActs,
            filePcts_encodeEvents, filePcts_successTail]
          rfl
        rw [hfp]
        refine ⟨?_, ?_, fun _ => List.getLast?_concat _⟩
        · intro p hp
          rcases List.mem_append.mp hp with hp | hp
          · rcases List.mem_map.mp hp with ⟨cur, -, rfl⟩
            exact pct_range _ _
          · simp only [List.mem_singleton] at hp
            simp [hp]
        · intro hch
          refine List.Chain'.append ?_ (by simp) ?_
          · exact List.chain'_map_of_chain' _ (fun a b hab => pct_mono _ hdur hab) hch
          · intro x hx y hy
            simp only [List.head?_cons, Option.mem_def, Option.some.injEq] at hy
            subst hy
            have hx' : x ∈ (emittedTimes env.stderrLines).map (pctOf (durationOf meta)) :=
              List.mem_of_mem_getLast? hx
            rcases List.mem_map.mp hx' with ⟨cur, -, rfl⟩
            exact (pct_range _ _).2
      · rw [processOne_encode_fail f job env meta hpr hc hrc]
        have hfp : filePcts (preActs job env
            ++ [Act.probeCall job.srcPath,
                Act.runEncoder (buildArgs f job (codecs_are_hls_friendly meta))]
            ++ encodeEvents job.srcName (durationOf meta) env.stderrLines)
            = (emittedTimes env.stderrLines).map (pctOf (durationOf meta)) := by
          rw [filePcts_append, filePcts_append, filePcts_preActs,
            filePcts_encodeEvents]
          rfl
        rw [hfp]
        refine ⟨?_, ?_, fun hok => absurd hok (by simp)⟩
        · intro p hp
          rcases List.mem_map.mp hp with ⟨cur, -, rfl⟩
          exact pct_range _ _
        · intro hch
          exact List.chain'_map_of_chain' _ (fun a b hab => pct_mono _ hdur hab) hch

/-- A compatible 1-second source, for exercising the progress clamp. -/
def metaDur1 : Meta :=
  ⟨[⟨some "video", some "h264"⟩, ⟨some "audio", some "aac"⟩], some (some 1)⟩

/-- Environment in which the encoder reports `time=` 2 s then 0.5 s (both
past the debounce window) against a 1 s duration and then exits with 1. -/
def envPctW : JobEnv :=
  { outDirExists := false, probeResult := Except.ok metaDur1,
    stderrLines := [(some 2, true), (some (1/2 : ℚ), true)], exitCode := 1,
    zipExists := false, dirFiles := [] }

/-- C3 counterexample: with a reported duration of 1 s the encoder's own
status lines drive the clamp to 100 before the process fails with exit
code 1, and the emitted sequence [100, 50] is also decreasing — so "100
only on Completed" (and unconditional monotonicity) fail on the code. -/
theorem job_progress_cex :
    ¬ ((∀ p ∈ filePcts (processOne "ffmpeg" jobW envPctW).1, 0 ≤ p ∧ p ≤ 100) ∧
       List.Chain' (· ≤ ·) (filePcts (processOne "ffmpeg" jobW envPctW).1) ∧
       (100 ∈ filePcts (processOne "ffmpeg" jobW envPctW).1 →
         (processOne "ffmpeg" jobW envPctW).2 = Outcome.ok)) := by
  intro hcl
  have hd1 : durationOf metaDur1 = 1 := by
    norm_num [durationOf, get_duration_seconds, metaDur1]
  have hp1 : pctOf 1 2 = 100 := by
    norm_num [pctOf, truncInt]
  have hfp : filePcts (processOne "ffmpeg" jobW envPctW).1
      = [pctOf 1 2, pctOf 1 (1/2 : ℚ)] := by
    rw [processOne_encode_fail "ffmpeg" jobW envPctW metaDur1 rfl (by decide)
      (by decide)]
    rw [filePcts_append, filePcts_append, filePcts_preActs, filePcts_encodeEvents]
    rw [hd1]
    rfl
  have h100 : (100 : ℤ) ∈ filePcts (processOne "ffmpeg" jobW envPctW).1 := by
    rw [hfp, hp1]
    exact List.mem_cons_self _ _
  have hok := hcl.2.2 h100
  have hfail : (processOne "ffmpeg" jobW envPctW).2 = Outcome.failed encoderFailMsg := by
    rw [processOne_encode_fail "ffmpeg" jobW envPctW metaDur1 rfl (by decide)
      (by decide)]
  rw [hfail] at hok
  exact absurd hok (by simp)

theorem job_progress_amended_witness :
    (filePcts (processOne "ffmpeg" jobW envOkW).1).getLast? = some 100 ∧
    List.Chain' (· ≤ ·) (filePcts (processOne "ffmpeg" jobW envOkW).1) := by
  have h := job_progress_amended "ffmpeg" jobW envOkW
  exact ⟨h.2.2 rfl, h.2.1 (by simp [emittedTimes, envOkW])⟩

lemma relpathL_append (base rel : List String) :
    relpathL (base ++ rel) base = rel := by
  unfold relpathL
  have h : base.isPrefixOf (base ++ rel) = true := by
    rw [List.isPrefixOf_iff_prefix]
    exact List.prefix_append _ _
  rw [if_pos h]
  exact List.drop_left _ _

lemma zipWrites_append (l1 l2 : List Act) :
    zipWrites (l1 ++ l2) = zipWrites l1 ++ zipWrites l2 := by
  simp [zipWrites, List.filterMap_append]

lemma zipWrites_preActs (job : Job) (env : JobEnv) :
    zipWrites (preActs job env) = [] := by
  cases h : env.outDirExists <;> simp [preActs, h, zipWrites]

lemma zipWrites_encodeEvents (n : String) (d : ℚ) (ls : List (Option ℚ × Bool)) :
    zipWrites (encodeEvents n d ls) = [] := by
  simp [encodeEvents, zipWrites, List.filterMap_map]

lemma zipWrites_successTail (job : Job) (env : JobEnv) :
    zipWrites (successTail job env) = [(zipPathOf job, zipEntriesOf job env)] := by
  cases hz : env.zipExists <;> simp [successTail, hz, zipWrites, List.filterMap_cons]

lemma zipEntriesOf_eq_dirFiles (job : Job) (env : JobEnv) :
    zipEntriesOf job env = env.dirFiles := by
  unfold zipEntriesOf
  have h : ∀ rel ∈ env.dirFiles,
      relpathL (outDirOf job ++ rel) (outDirOf job) = id rel :=
    fun rel _ => relpathL_append _ _
  rw [List.map_congr_left h, List.map_id]

/-- C6: on a successfully packaged job, exactly one archive is written, at
`<destination>/<stem>.zip`; every regular file found under the working
directory goes in under its path relative to that directory (`relpathL`
strips exactly the working-directory prefix, so entries are never
absolute and never carry the directory's own name); and when the
directory holds the manifest plus segment files the archive's entry list
is exactly one manifest and the segments, each a bare one-component name,
so extraction puts them at the root with no nested directory. -/
theorem archive_entries_relative (f : String) (job : Job) (env : JobEnv) (meta : Meta)
    (segNames : List String)
    (h : env.probeResult = Except.ok meta)
    (hc : (!codecs_are_hls_friendly meta && job.skip_if_incompatible
        && !job.enable_transcode_if_needed) = false)
    (hrc : env.exitCode = 0)
    (hfiles : env.dirFiles = [["playlist.m3u8"]] ++ segNames.map (fun s => [s])) :
    zipWrites (processOne f job env).1
      = [(zipPathOf job, [["playlist.m3u8"]] ++ segNames.map (fun s => [s]))] ∧
    (∀ rel ∈ env.dirFiles, relpathL (outDirOf job ++ rel) (outDirOf job) = rel) ∧
    (∀ e ∈ zipEntriesOf job env, e.length = 1) := by
  refine ⟨?_, fun rel _ => relpathL_append _ _, ?_⟩
  · rw [processOne_encode_ok f job env meta h hc hrc]
    rw [zipWrites_append, zipWrites_append, zipWrites_append, zipWrites_preActs,
      zipWrites_encodeEvents, zipWrites_successTail, zipEntriesOf_eq_dirFiles,
      hfiles]
    rfl
  · intro e he
    rw [zipEntriesOf_eq_dirFiles, hfiles] at he
    rcases List.mem_append.mp he with he | he
    · simp only [List.mem_singleton] at he
      simp [he]
    · rcases List.mem_map.mp he with ⟨s, -, rfl⟩
      rfl

theorem archive_entries_relative_witness :
    zipWrites (processOne "ffmpeg" jobW envOkW).1
      = [(zipPathOf jobW,
          [["playlist.m3u8"], ["segment_00000.ts"], ["segment_00001.ts"]])] := by
  have h := archive_entries_relative "ffmpeg" jobW envOkW metaCompat
    ["segment_00000.ts", "segment_00001.ts"] rfl (by decide) rfl rfl
  exact h.1

lemma flags_preActs (job : Job) (env : JobEnv) :
    ∀ a ∈ preActs job env,
      isProgressAll a = false ∧ isFileDone a = false ∧ isAllDone a = false := by
  intro a ha
  cases henv : env.outDirExists <;> rw [preActs, henv] at ha <;> simp at ha
  · subst ha
    exact ⟨rfl, rfl, rfl⟩
  · rcases ha with rfl | rfl <;> exact ⟨rfl, rfl, rfl⟩

lemma flags_encodeEvents (n : String) (d : ℚ) (ls : List (Option ℚ × Bool)) :
    ∀ a ∈ encodeEvents n d ls,
      isProgressAll a = false ∧ isFileDone a = false ∧ isAllDone a = false := by
  intro a ha
  rcases List.mem_map.mp ha with ⟨cur, -, rfl⟩
  exact ⟨rfl, rfl, rfl⟩

lemma flags_successTail (job : Job) (env : JobEnv) :
    ∀ a ∈ successTail job env,
      isProgressAll a = false ∧ isFileDone a = false ∧ isAllDone a = false := by
  intro a ha
  cases hz : env.zipExists <;> rw [successTail, hz] at ha <;> simp at ha <;>
    rcases ha with rfl | rfl | rfl | rfl | rfl <;> exact ⟨rfl, rfl, rfl⟩

lemma flags_processOne (f : String) (job : Job) (env : JobEnv) :
    ∀ a ∈ (processOne f job env).1,
      isProgressAll a = false ∧ isFileDone a = false ∧ isAllDone a = false := by
  intro a ha
  cases hpr : env.probeResult with
  | error e =>
    rw [processOne_probe_error f job env e hpr] at ha
    rcases List.mem_append.mp ha with ha | ha
    · exact flags_preActs job env a ha
    · simp at ha
      subst ha
      exact ⟨rfl, rfl, rfl⟩
  | ok meta =>
    by_cases hc : (!codecs_are_hls_friendly meta && job.skip_if_incompatible
        && !job.enable_transcode_if_needed) = true
    · rw [processOne_skip f job env meta hpr hc] at ha
      rcases List.mem_append.mp ha with ha | ha
      · exact flags_preActs job env a ha
      · simp at ha
        subst ha
        exact ⟨rfl, rfl, rfl⟩
    · rw [Bool.not_eq_true] at hc
      by_cases hrc : env.exitCode = 0
      · rw [processOne_encode_ok f job env meta hpr hc hrc] at ha
        rcases List.mem_append.mp ha with ha | ha
        · rcases List.mem_append.mp ha with ha | ha
          · rcases List.mem_append.mp ha with ha | ha
            · exact flags_preActs job env a ha
            · simp at ha
              rcases ha with rfl | rfl <;> exact ⟨rfl, rfl, rfl⟩
          · exact flags_encodeEvents _ _ _ a ha
        · exact flags_successTail job env a ha
      · rw [processOne_encode_fail f job env meta hpr hc hrc] at ha
        rcases List.mem_append.mp ha with ha | ha
        · rcases List.mem_append.mp ha with ha | ha
          · exact flags_preActs job env a ha
          · simp at ha
            rcases ha with rfl | rfl <;> exact ⟨rfl, rfl, rfl⟩
        · exact flags_encodeEvents _ _ _ a ha

lemma cnt_allDone_terminal (job : Job) (oc : Outcome) :
    cnt isAllDone (terminalActs job oc) = 0 := by
  cases oc <;> rfl

lemma cnt_allDone_runJobs (f : String) (total : Nat) (stop : Nat → Bool) :
    ∀ (i : Nat) (jobs : List (Job × JobEnv)),
      cnt isAllDone (runJobs f total stop i jobs) = 0 := by
  intro i jobs
  induction jobs generalizing i with
  | nil => rfl
  | cons je rest ih =>
    rcases je with ⟨job, env⟩
    rw [runJobs]
    cases hs : stop i
    · simp only [if_false, Bool.false_eq_true]
      rw [cnt_append, cnt_append, cnt_append]
      rw [cnt_eq_zero _ _ (fun a ha => (flags_processOne f job env a ha).2.2),
        cnt_allDone_terminal, ih (i + 1)]
      rfl
    · simp only [if_true]
      rfl

/-- C7: every run emits the batch-complete signal exactly once — with an
empty job list, with every job failed or skipped, and under cancellation
between jobs alike — and when the ffmpeg/ffprobe binaries cannot be
located the whole trace is a single `ERROR` log line followed by the
batch-complete signal: the failure is logged once and no job is touched. -/
theorem batch_complete_once (binaries : Except String (String × String))
    (stop : Nat → Bool) (jobs : List (Job × JobEnv)) (e : String) :
    cnt isAllDone (runModel binaries stop jobs) = 1 ∧
    runModel (Except.error e) stop jobs
      = [Act.logMsg ("ERROR: " ++ e), Act.allDone] := by
  refine ⟨?_, rfl⟩
  cases binaries with
  | error e' => rfl
  | ok fp =>
    rw [runModel]
    rw [cnt_append, cnt_allDone_runJobs]
    rfl

lemma progressVals_append (l1 l2 : List Act) :
    progressVals (l1 ++ l2) = progressVals l1 ++ progressVals l2 := by
  simp [progressVals, List.filterMap_append]

lemma progressVals_eq_nil (l : List Act) (h : ∀ a ∈ l, isProgressAll a = false) :
    progressVals l = [] := by
  rw [progressVals, List.filterMap_eq_nil_iff]
  intro a ha
  have := h a ha
  cases a <;> simp_all [isProgressAll]

lemma progressVals_terminal (job : Job) (oc : Outcome) :
    progressVals (terminalActs job oc) = [] := by
  cases oc <;> rfl

lemma progressVals_runJobs (f : String) (total : Nat) (stop : Nat → Bool)
    (hstop : ∀ i, stop i = false) :
    ∀ (i : Nat) (jobs : List (Job × JobEnv)),
      progressVals (runJobs f total stop i jobs)
        = (List.range jobs.length).map (fun k => (i + k + 1) * 100 / total) := by
  intro i jobs
  induction jobs generalizing i with
  | nil => rfl
  | cons je rest ih =>
    rcases je with ⟨job, env⟩
    rw [runJobs, hstop i]
    simp only [if_false, Bool.false_eq_true]
    rw [progressVals_append, progressVals_append, progressVals_append]
    rw [progressVals_eq_nil _ (fun a ha => (flags_processOne f job env a ha).1),
      progressVals_terminal, ih (i + 1)]
    have hsingle : progressVals [Act.progressAll ((i + 1) * 100 / total)]
        = [(i + 1) * 100 / total] := rfl
    rw [hsingle]
    rw [List.length_cons, List.range_succ_eq_map, List.map_cons, List.map_map]
    have harith : ∀ k, (i + 1 + k + 1) * 100 / total
        = ((fun k => (i + k + 1) * 100 / total) ∘ (· + 1)) k := by
      intro k
      have : i + 1 + k + 1 = i + (k + 1) + 1 := by omega
      simp [Function.comp, this]
    rw [List.map_congr_left (fun k _ => harith k)]
    simp

lemma cnt_take_le_append (p q : Act → Bool) (l1 l2 : List Act)
    (h1 : ∀ n, cnt p (l1.take n) ≤ cnt q (l1.take n))
    (h2 : ∀ n, cnt p (l2.take n) ≤ cnt q (l2.take n)) :
    ∀ n, cnt p ((l1 ++ l2).take n) ≤ cnt q ((l1 ++ l2).take n) := by
  intro n
  rw [List.take_append_eq_append_take, cnt_append, cnt_append]
  exact Nat.add_le_add (h1 n) (h2 _)

lemma block_prefix_le (L : List Act) (v : Nat)
    (hP : cnt isProgressAll L = 0) (hQ : 1 ≤ cnt isFileDone L) :
    ∀ n, cnt isProgressAll ((L ++ [Act.progressAll v]).take n)
        ≤ cnt isFileDone ((L ++ [Act.progressAll v]).take n) := by
  intro n
  rw [List.take_append_eq_append_take, cnt_append, cnt_append]
  have h1 : cnt isProgressAll (L.take n) = 0 :=
    Nat.le_zero.mp (hP ▸ cnt_take_le _ _ _)
  rw [h1]
  rcases Nat.eq_zero_or_pos (n - L.length) with hm | hm
  · rw [hm]
    simp only [List.take_zero]
    exact Nat.zero_le _
  · have hn : L.length ≤ n := by omega
    have hL : L.take n = L := List.take_of_length_le hn
    have hx : ([Act.progressAll v]).take (n - L.length) = [Act.progressAll v] :=
      List.take_of_length_le (by simp only [List.length_cons, List.length_nil]; omega)
    rw [hL, hx]
    have c1 : cnt isProgressAll [Act.progressAll v] = 1 := rfl
    have c2 : cnt isFileDone [Act.progressAll v] = 0 := rfl
    rw [c1, c2]
    omega

lemma cnt_fileDone_terminal (job : Job) (oc : Outcome) :
    cnt isFileDone (terminalActs job oc) = 1 := by
  cases oc <;> rfl

lemma cnt_progressAll_terminal (job : Job) (oc : Outcome) :
    cnt isProgressAll (terminalActs job oc) = 0 := by
  cases oc <;> rfl

lemma runJobs_prefix_le (f : String) (total : Nat) (stop : Nat → Bool) :
    ∀ (i : Nat) (jobs : List (Job × JobEnv)) (n : Nat),
      cnt isProgressAll ((runJobs f total stop i jobs).take n)
        ≤ cnt isFileDone ((runJobs f total stop i jobs).take n) := by
  intro i jobs
  induction jobs generalizing i with
  | nil =>
    intro n
    rw [runJobs]
    simp [cnt]
  | cons je rest ih =>
    rcases je with ⟨job, env⟩
    rw [runJobs]
    cases hs : stop i
    · simp only [if_false, Bool.false_eq_true]
      have hblock : ∀ n,
          cnt isProgressAll ((((processOne f job env).1
              ++ terminalActs job (processOne f job env).2)
              ++ [Act.progressAll ((i + 1) * 100 / total)]).take n)
            ≤ cnt isFileDone ((((processOne f job env).1
              ++ terminalActs job (processOne f job env).2)
              ++ [Act.progressAll ((i + 1) * 100 / total)]).take n) := by
        apply block_prefix_le
        · rw [cnt_append,
            cnt_eq_zero _ _ (fun a ha => (flags_processOne f job env a ha).1),
            cnt_progressAll_terminal]
        · rw [cnt_append, cnt_fileDone_terminal]
          omega
      intro n
      have hassoc : (processOne f job env).1
            ++ terminalActs job (processOne f job env).2
            ++ [Act.progressAll ((i + 1) * 100 / total)]
            ++ runJobs f total stop (i + 1) rest
          = (((processOne f job env).1
              ++ terminalActs job (processOne f job env).2)
              ++ [Act.progressAll ((i + 1) * 100 / total)])
            ++ runJobs f total stop (i + 1) rest := by
        simp [List.append_assoc]
      rw [hassoc]
      exact cnt_take_le_append _ _ _ _ hblock (ih (i + 1)) n
    · simp only [if_true]
      intro n
      simp [cnt]

/-- C4: in a full (uncancelled) run over a non-empty job list of length N,
the overall-progress values are exactly `[⌊1*100/N⌋, …, ⌊N*100/N⌋]` —
one event per job, in order, the k-th valued `⌊k*100/N⌋` — the final
value is 100, and in every prefix of the trace the number of
overall-progress events never exceeds the number of per-job terminal
events, i.e. the k-th overall-progress event comes only after the k-th
job's terminal event. -/
theorem overall_progress_floor (f fp : String) (stop : Nat → Bool)
    (jobs : List (Job × JobEnv))
    (hne : jobs ≠ [])
    (hstop : ∀ i, stop i = false) :
    progressVals (runModel (Except.ok (f, fp)) stop jobs)
      = (List.range jobs.length).map (fun k => (k + 1) * 100 / jobs.length) ∧
    (progressVals (runModel (Except.ok (f, fp)) stop jobs)).getLast? = some 100 ∧
    ∀ n, cnt isProgressAll ((runModel (Except.ok (f, fp)) stop jobs).take n)
        ≤ cnt isFileDone ((runModel (Except.ok (f, fp)) stop jobs).take n) := by
  have hmain : progressVals (runModel (Except.ok (f, fp)) stop jobs)
      = (List.range jobs.length).map (fun k => (k + 1) * 100 / jobs.length) := by
    rw [runModel]
    rw [progressVals_append]
    have hAD : progressVals [Act.allDone] = [] := rfl
    rw [hAD, List.append_nil]
    rw [progressVals_runJobs f jobs.length stop hstop 0 jobs]
    apply List.map_congr_left
    intro k _
    have hz : 0 + k + 1 = k + 1 := by omega
    rw [hz]
  refine ⟨hmain, ?_, ?_⟩
  · rw [hmain]
    obtain ⟨m, hm⟩ : ∃ m, jobs.length = m + 1 := by
      cases hjl : jobs.length with
      | zero => exact absurd (List.length_eq_zero.mp hjl) hne
      | succ m => exact ⟨m, rfl⟩
    rw [hm, List.range_succ, List.map_append, List.map_singleton,
      List.getLast?_concat]
    rw [Nat.mul_div_cancel_left 100 (Nat.succ_pos m)]
  · rw [runModel]
    apply cnt_take_le_append
    · exact fun n => runJobs_prefix_le f jobs.length stop 0 jobs n
    · intro n
      have h0 : cnt isProgressAll ([Act.allDone].take n) = 0 :=
        Nat.le_zero.mp
          ((by rfl : cnt isProgressAll [Act.allDone] = 0) ▸ cnt_take_le _ _ _)
      rw [h0]
      exact Nat.zero_le _

/-- A probe-failure environment: tiny traces for concrete runs. -/
def envErrW : JobEnv :=
  { outDirExists := false, probeResult := Except.error "moov atom not found",
    stderrLines := [], exitCode := 0, zipExists := false, dirFiles := [] }

theorem overall_progress_floor_witness :
    progressVals (runModel (Except.ok ("ffmpeg", "ffprobe")) (fun _ => false)
        [(jobW, envErrW), (jobW, envErrW)]) = [50, 100] ∧
    (progressVals (runModel (Except.ok ("ffmpeg", "ffprobe")) (fun _ => false)
        [(jobW, envErrW), (jobW, envErrW)])).getLast? = some 100 ∧
    cnt isProgressAll ((runModel (Except.ok ("ffmpeg", "ffprobe")) (fun _ => false)
        [(jobW, envErrW), (jobW, envErrW)]).take 3)
      ≤ cnt isFileDone ((runModel (Except.ok ("ffmpeg", "ffprobe")) (fun _ => false)
        [(jobW, envErrW), (jobW, envErrW)]).take 3) := by
  have h := overall_progress_floor "ffmpeg" "ffprobe" (fun _ => false)
    [(jobW, envErrW), (jobW, envErrW)] (by simp) (fun _ => rfl)
  refine ⟨?_, h.2.1, h.2.2 3⟩
  rw [h.1]
  rfl
